import Mathlib

/-!
# Verification of `torchgan/models/dcgan.py`

A shallow embedding of the DCGAN generator and discriminator builders
(`DCGANGenerator.__init__` / `DCGANDiscriminator.__init__`) and their
`forward` shape behaviour, together with theorems settling the frozen
claims about this file.

The embedding follows the Python source:

* a layer of the built `nn.Sequential` is a `LayerSpec`: its convolution
  parameters (`nn.Conv2d` / `nn.ConvTranspose2d` arguments), whether a
  `nn.BatchNorm2d` follows the convolution, and the nonlinearity;
* `num_repeats = out_size.bit_length() - 4` is `numRepeats`, with
  `bitLength` modelling Python's `int.bit_length` (fuel-based so it
  reduces definitionally);
* the two `for i in range(num_repeats)` loops become the recursions
  `genLoop` / `discLoop`, which return the appended layers together with
  the final value of the loop variable `d`;
* tensor shapes are tracked as `(channels, spatial)` pairs for square
  images; `convOut` implements the PyTorch output-size formulas for
  `Conv2d` ( `(i + 2p - k) / s + 1` ) and `ConvTranspose2d`
  ( `(i - 1) s - 2p + k` ), returning `none` when the output would be
  empty (the shape-error case);
* the size validation `out_size < 16 or ceil(log2(out_size)) != log2(out_size)`
  runs over IEEE-754 double precision `math.log2`; it is modelled
  relationally at the end of this file (`dcganSizeRaises`) via
  round-to-nearest over the unbounded-exponent binary64 representable
  numbers (`IsDouble`, `RoundsTo`).

The Python nonlinearity literal `0.2` is written as the rational `1/5`;
no arithmetic is ever performed on the slope, it is only carried as data.
-/

/-- A nonlinearity module, as far as the builders distinguish them. -/
inductive Activation where
  | leakyReLU (slope : ℚ)
  | tanh
  | sigmoid
  deriving DecidableEq, Repr

/-- Arguments of an `nn.Conv2d` / `nn.ConvTranspose2d` call:
`(in_channels, out_channels, kernel_size, stride, padding, bias)`,
plus whether the module is the transposed convolution. -/
structure ConvSpec where
  transposed : Bool
  inChannels : ℕ
  outChannels : ℕ
  kernel : ℕ
  stride : ℕ
  padding : ℕ
  bias : Bool
  deriving DecidableEq, Repr

/-- One `nn.Sequential` block appended to `model`: a convolution,
optionally a `nn.BatchNorm2d`, and a nonlinearity. -/
structure LayerSpec where
  conv : ConvSpec
  batchnorm : Bool
  activation : Activation
  deriving DecidableEq, Repr

/-- Fuel-based helper for `bitLength` (structural recursion on the fuel,
so that concrete values reduce by `decide`/`rfl`). -/
def bitLenAux : ℕ → ℕ → ℕ
  | 0, _ => 0
  | fuel + 1, n => if n = 0 then 0 else bitLenAux fuel (n / 2) + 1

/-- Python's `int.bit_length()` on a natural number: the number of bits
needed to write `n` in binary, `0` for `0`. -/
def bitLength (n : ℕ) : ℕ := bitLenAux n n

/-- `num_repeats = out_size.bit_length() - 4` as computed by both
`DCGANGenerator.__init__` (line 33) and `DCGANDiscriminator.__init__`
(line 93).  ℕ-subtraction agrees with Python here because the
constructors only reach this line for sizes of at least 16. -/
def numRepeats (size : ℕ) : ℕ := bitLength size - 4

/-- `nn.LeakyReLU(0.2)`, the default intermediate nonlinearity of both
builders. -/
def defaultNl : Activation := .leakyReLU (1 / 5)

/-- The generator's `for i in range(num_repeats)` loop
(lines 45-49 / 54-56): each pass appends
`ConvTranspose2d(d, d // 2, 4, 2, 1, bias=use_bias)` (with a
`BatchNorm2d(d // 2)` in the `batchnorm` branch) followed by the
nonlinearity, then halves `d`.  Returns the appended layers and the
final value of `d`.  `use_bias = not batchnorm` (line 36). -/
def genLoop (bn : Bool) (nl : Activation) : ℕ → ℕ → List LayerSpec × ℕ
  | d, 0 => ([], d)
  | d, r + 1 =>
    let rest := genLoop bn nl (d / 2) r
    (⟨⟨true, d, d / 2, 4, 2, 1, !bn⟩, bn, nl⟩ :: rest.1, rest.2)

/-- The list of layers built by `DCGANGenerator.__init__`
(lines 33-59): the initial expansion
`ConvTranspose2d(encoding_dims, d, 4, 1, 0, bias=use_bias)` with
`d = step_channels * 2 ** num_repeats`, then the doubling loop, then the
final `ConvTranspose2d(d, out_channels, 4, 2, 1, bias=True)` with the
last nonlinearity (and no batch norm). -/
def dcganGeneratorModel (encodingDims outSize outChannels stepChannels : ℕ)
    (batchnorm : Bool) (nonlinearity lastNonlinearity : Option Activation) :
    List LayerSpec :=
  let r := numRepeats outSize
  let nl := nonlinearity.getD defaultNl
  let lastNl := lastNonlinearity.getD .tanh
  let d := stepChannels * 2 ^ r
  let loop := genLoop batchnorm nl d r
  ⟨⟨true, encodingDims, d, 4, 1, 0, !batchnorm⟩, batchnorm, nl⟩ ::
    (loop.1 ++ [⟨⟨true, loop.2, outChannels, 4, 2, 1, true⟩, false, lastNl⟩])

/-- The discriminator's `for i in range(num_repeats)` loop
(lines 102-111): each pass appends
`Conv2d(d, d * 2, 4, 2, 1, bias=use_bias)` (with a `BatchNorm2d(d * 2)`
in the `batchnorm` branch) followed by the nonlinearity, then doubles
`d`. -/
def discLoop (bn : Bool) (nl : Activation) : ℕ → ℕ → List LayerSpec × ℕ
  | d, 0 => ([], d)
  | d, r + 1 =>
    let rest := discLoop bn nl (d * 2) r
    (⟨⟨false, d, d * 2, 4, 2, 1, !bn⟩, bn, nl⟩ :: rest.1, rest.2)

/-- The list of layers built by `DCGANDiscriminator.__init__`
(lines 93-115): the initial contraction
`Conv2d(in_channels, step_channels, 4, 2, 1, bias=True)` with the
nonlinearity (no batch norm), then the doubling loop starting from
`d = step_channels`, then the final
`Conv2d(d, 1, 4, 1, 0, bias=use_bias)` with the last nonlinearity. -/
def dcganDiscriminatorModel (inSize inChannels stepChannels : ℕ)
    (batchnorm : Bool) (nonlinearity lastNonlinearity : Option Activation) :
    List LayerSpec :=
  let r := numRepeats inSize
  let nl := nonlinearity.getD defaultNl
  let lastNl := lastNonlinearity.getD defaultNl
  let loop := discLoop batchnorm nl stepChannels r
  ⟨⟨false, inChannels, stepChannels, 4, 2, 1, true⟩, false, nl⟩ ::
    (loop.1 ++ [⟨⟨false, loop.2, 1, 4, 1, 0, !batchnorm⟩, false, lastNl⟩])

/-- Spatial output size of a (square) convolution module on a square
input of side `s`: `(s + 2p - k) / s + 1` for `Conv2d` and
`(s - 1) * stride - 2p + k` for `ConvTranspose2d` (dilation 1,
output_padding 0), `none` when the result would be empty, which PyTorch
reports as a shape error. -/
def convOut (c : ConvSpec) (s : ℕ) : Option ℕ :=
  if c.transposed then
    if (s - 1) * c.stride + c.kernel ≤ 2 * c.padding then none
    else some ((s - 1) * c.stride + c.kernel - 2 * c.padding)
  else
    if s + 2 * c.padding < c.kernel then none
    else some ((s + 2 * c.padding - c.kernel) / c.stride + 1)

/-- Apply one layer to a `(channels, spatial)` shape: the convolution
demands its `in_channels`, batch norm and the nonlinearity preserve the
shape. -/
def applyLayer (l : LayerSpec) (s : ℕ × ℕ) : Option (ℕ × ℕ) :=
  if s.1 = l.conv.inChannels then
    (convOut l.conv s.2).map fun o => (l.conv.outChannels, o)
  else none

/-- Run a whole `nn.Sequential` on a `(channels, spatial)` shape. -/
def applyModel : List LayerSpec → ℕ × ℕ → Option (ℕ × ℕ)
  | [], s => some s
  | l :: ls, s =>
    match applyLayer l s with
    | none => none
    | some t => applyModel ls t

/-- Shape behaviour of `DCGANGenerator.forward` (lines 62-64) on an
input of shape `[batch, inputDim]`: the input is reshaped by
`x.view(-1, x.size(1), 1, 1)` to `[batch, inputDim, 1, 1]` and the model
is applied; the result is the full output shape
`[batch, channels, spatial, spatial]`. -/
def dcganGeneratorForwardShape (encodingDims outSize outChannels stepChannels : ℕ)
    (batchnorm : Bool) (nonlinearity lastNonlinearity : Option Activation)
    (batch inputDim : ℕ) : Option (ℕ × ℕ × ℕ × ℕ) :=
  match applyModel
      (dcganGeneratorModel encodingDims outSize outChannels stepChannels
        batchnorm nonlinearity lastNonlinearity) (inputDim, 1) with
  | none => none
  | some (c, s) => some (batch, c, s, s)

/-- Shape behaviour of `DCGANDiscriminator.forward` (lines 117-119) on
an input of shape `[batch, ch, sz, sz]`: the model is applied and the
result is flattened by `x.view(x.size(0),)`, which requires exactly one
element per sample; the result is the length of the returned
one-dimensional tensor. -/
def dcganDiscriminatorForwardShape (inSize inChannels stepChannels : ℕ)
    (batchnorm : Bool) (nonlinearity lastNonlinearity : Option Activation)
    (batch ch sz : ℕ) : Option ℕ :=
  match applyModel
      (dcganDiscriminatorModel inSize inChannels stepChannels
        batchnorm nonlinearity lastNonlinearity) (ch, sz) with
  | none => none
  | some (c, s) => if c * (s * s) = 1 then some batch else none

/-! ## Basic facts about `bitLength` and the loops -/

theorem bitLenAux_eq_log (fuel n : ℕ) (hf : n ≤ fuel) (hn : 0 < n) :
    bitLenAux fuel n = Nat.log 2 n + 1 := by
  induction fuel generalizing n with
  | zero => omega
  | succ fuel ih =>
    rw [bitLenAux, if_neg (by omega)]
    rcases Nat.lt_or_ge n 2 with h2 | h2
    · have hn1 : n = 1 := by omega
      subst hn1
      simp [bitLenAux, Nat.log]
      cases fuel <;> simp [bitLenAux]
    · have hdiv : 0 < n / 2 := Nat.div_pos h2 (by norm_num)
      have hlt : n / 2 ≤ fuel := by
        have := Nat.div_lt_self hn (by norm_num : 1 < 2)
        omega
      rw [ih (n / 2) hlt hdiv]
      have := Nat.log_div_base 2 n
      have hpos : 0 < Nat.log 2 n := Nat.log_pos (by norm_num) h2
      omega

theorem bitLength_two_pow (k : ℕ) : bitLength (2 ^ k) = k + 1 := by
  rw [bitLength, bitLenAux_eq_log (2 ^ k) (2 ^ k) le_rfl (Nat.pos_pow_of_pos k (by norm_num)),
    Nat.log_pow (by norm_num)]

/-- For a power-of-two size `2 ^ k` the builders' `num_repeats` is `k - 3`. -/
theorem numRepeats_two_pow (k : ℕ) : numRepeats (2 ^ k) = k - 3 := by
  rw [numRepeats, bitLength_two_pow]
  omega

theorem genLoop_snd (bn : Bool) (nl : Activation) (m : ℕ) :
    ∀ r : ℕ, (genLoop bn nl (m * 2 ^ r) r).2 = m := by
  intro r
  induction r generalizing m with
  | zero => simp [genLoop]
  | succ r ih =>
    have hdiv : m * 2 ^ (r + 1) / 2 = m * 2 ^ r := by
      have h2 : m * 2 ^ (r + 1) = m * 2 ^ r * 2 := by ring
      rw [h2, Nat.mul_div_cancel _ (by norm_num)]
    simp only [genLoop, hdiv]
    exact ih m

theorem discLoop_snd (bn : Bool) (nl : Activation) (m : ℕ) :
    ∀ r : ℕ, (discLoop bn nl m r).2 = m * 2 ^ r := by
  intro r
  induction r generalizing m with
  | zero => simp [discLoop]
  | succ r ih =>
    simp only [discLoop]
    rw [ih (m * 2)]
    ring

theorem genLoop_fst (bn : Bool) (nl : Activation) (m : ℕ) :
    ∀ r : ℕ, (genLoop bn nl (m * 2 ^ r) r).1 =
      (List.range r).map fun i =>
        ⟨⟨true, m * 2 ^ (r - i), m * 2 ^ (r - i) / 2, 4, 2, 1, !bn⟩, bn, nl⟩ := by
  intro r
  induction r generalizing m with
  | zero => simp [genLoop]
  | succ r ih =>
    have hdiv : m * 2 ^ (r + 1) / 2 = m * 2 ^ r := by
      have h2 : m * 2 ^ (r + 1) = m * 2 ^ r * 2 := by ring
      rw [h2, Nat.mul_div_cancel _ (by norm_num)]
    simp only [genLoop, hdiv, ih m, List.range_succ_eq_map, List.map_cons, List.map_map]
    refine List.cons_eq_cons.mpr ⟨by simp [hdiv], List.map_congr_left fun i _ => ?_⟩
    have he : r + 1 - (i + 1) = r - i := by omega
    simp [Function.comp, he]

theorem discLoop_fst (bn : Bool) (nl : Activation) (m : ℕ) :
    ∀ r : ℕ, (discLoop bn nl m r).1 =
      (List.range r).map fun i =>
        ⟨⟨false, m * 2 ^ i, m * 2 ^ i * 2, 4, 2, 1, !bn⟩, bn, nl⟩ := by
  intro r
  induction r generalizing m with
  | zero => simp [discLoop]
  | succ r ih =>
    simp only [discLoop, ih (m * 2), List.range_succ_eq_map, List.map_cons, List.map_map]
    refine List.cons_eq_cons.mpr ⟨by simp, List.map_congr_left fun i _ => ?_⟩
    have he : m * 2 * 2 ^ i = m * 2 ^ (i + 1) := by ring
    simp [Function.comp, he]

theorem applyModel_append (xs ys : List LayerSpec) (s : ℕ × ℕ) :
    applyModel (xs ++ ys) s = (applyModel xs s).bind (applyModel ys) := by
  induction xs generalizing s with
  | nil => simp [applyModel]
  | cons l xs ih =>
    simp only [List.cons_append, applyModel]
    cases applyLayer l s with
    | none => rfl
    | some t => exact ih t

theorem applyModel_cons_some (l : LayerSpec) (ls : List LayerSpec) (s t : ℕ × ℕ)
    (h : applyLayer l s = some t) : applyModel (l :: ls) s = applyModel ls t := by
  simp only [applyModel, h]

theorem genLoop_apply (bn : Bool) (nl : Activation) (m : ℕ) :
    ∀ (r s : ℕ), 1 ≤ s →
      applyModel (genLoop bn nl (m * 2 ^ r) r).1 (m * 2 ^ r, s) =
        some (m, s * 2 ^ r) := by
  intro r
  induction r generalizing m with
  | zero => intro s _; simp [genLoop, applyModel]
  | succ r ih =>
    intro s hs
    have hdiv : m * 2 ^ (r + 1) / 2 = m * 2 ^ r := by
      have h2 : m * 2 ^ (r + 1) = m * 2 ^ r * 2 := by ring
      rw [h2, Nat.mul_div_cancel _ (by norm_num)]
    have hlay : applyLayer ⟨⟨true, m * 2 ^ (r + 1), m * 2 ^ (r + 1) / 2, 4, 2, 1, !bn⟩, bn, nl⟩
        (m * 2 ^ (r + 1), s) = some (m * 2 ^ r, 2 * s) := by
      have h1 : ¬((s - 1) * 2 + 4 ≤ 2 * 1) := by omega
      have h2 : (s - 1) * 2 + 4 - 2 * 1 = 2 * s := by omega
      simp [applyLayer, convOut, h1, h2, hdiv]
    have hgl : (genLoop bn nl (m * 2 ^ (r + 1)) (r + 1)).1 =
        ⟨⟨true, m * 2 ^ (r + 1), m * 2 ^ (r + 1) / 2, 4, 2, 1, !bn⟩, bn, nl⟩ ::
          (genLoop bn nl (m * 2 ^ (r + 1) / 2) r).1 := rfl
    rw [hgl, applyModel_cons_some _ _ _ _ hlay, hdiv, ih m (2 * s) (by omega)]
    congr 1
    ring_nf

theorem discLoop_apply (bn : Bool) (nl : Activation) (m : ℕ) :
    ∀ (r s : ℕ), applyModel (discLoop bn nl m r).1 (m, 2 ^ r * s + 2 ^ r) =
      some (m * 2 ^ r, s + 1) := by
  intro r
  induction r generalizing m with
  | zero => intro s; simp [discLoop, applyModel]
  | succ r ih =>
    intro s
    have hi : 2 ^ (r + 1) * s + 2 ^ (r + 1) = 2 * (2 ^ r * s + 2 ^ r) := by ring
    have hlay : applyLayer ⟨⟨false, m, m * 2, 4, 2, 1, !bn⟩, bn, nl⟩
        (m, 2 ^ (r + 1) * s + 2 ^ (r + 1)) = some (m * 2, 2 ^ r * s + 2 ^ r) := by
      have hpos : 0 < 2 ^ r := Nat.pos_pow_of_pos r (by norm_num)
      have h1 : ¬(2 ^ (r + 1) * s + 2 ^ (r + 1) + 2 * 1 < 4) := by omega
      simp [applyLayer, convOut, h1]
      rw [hi]
      omega
    have hdl : (discLoop bn nl m (r + 1)).1 =
        ⟨⟨false, m, m * 2, 4, 2, 1, !bn⟩, bn, nl⟩ :: (discLoop bn nl (m * 2) r).1 := rfl
    rw [hdl, applyModel_cons_some _ _ _ _ hlay, ih (m * 2) s]
    have h3 : m * 2 * 2 ^ r = m * 2 ^ (r + 1) := by ring
    rw [h3]

/-- On a valid power-of-two size the generator's layer stack takes a
`[*, encodingDims, 1, 1]` shape to `[*, outChannels, 2 ^ k, 2 ^ k]`. -/
theorem dcganGeneratorModel_apply (e c n k : ℕ) (bn : Bool) (a la : Option Activation)
    (hk : 4 ≤ k) :
    applyModel (dcganGeneratorModel e (2 ^ k) c n bn a la) (e, 1) = some (c, 2 ^ k) := by
  set r := numRepeats (2 ^ k) with hrdef
  set nl := a.getD defaultNl with hnl
  set d := n * 2 ^ r with hd
  have hm : dcganGeneratorModel e (2 ^ k) c n bn a la =
      ⟨⟨true, e, d, 4, 1, 0, !bn⟩, bn, nl⟩ ::
        ((genLoop bn nl d r).1 ++
          [⟨⟨true, (genLoop bn nl d r).2, c, 4, 2, 1, true⟩, false, la.getD .tanh⟩]) := rfl
  have hlay1 : applyLayer ⟨⟨true, e, d, 4, 1, 0, !bn⟩, bn, nl⟩ (e, 1) = some (d, 4) := by
    simp [applyLayer, convOut]
  rw [hm, applyModel_cons_some _ _ _ _ hlay1, applyModel_append]
  rw [hd, genLoop_apply bn nl n r 4 (by norm_num), Option.some_bind]
  have hsnd : (genLoop bn nl (n * 2 ^ r) r).2 = n := genLoop_snd bn nl n r
  have hpos : 0 < 2 ^ r := Nat.pos_pow_of_pos _ (by norm_num)
  have hlay2 : applyLayer ⟨⟨true, (genLoop bn nl (n * 2 ^ r) r).2, c, 4, 2, 1, true⟩,
      false, la.getD .tanh⟩ (n, 4 * 2 ^ r) = some (c, 2 ^ k) := by
    have h1 : ¬((4 * 2 ^ r - 1) * 2 + 4 ≤ 2 * 1) := by omega
    have h2 : (4 * 2 ^ r - 1) * 2 + 4 - 2 * 1 = 2 ^ k := by
      have hr3 : r = k - 3 := numRepeats_two_pow k
      have hk3 : 2 ^ k = 2 ^ 3 * 2 ^ r := by
        rw [hr3, ← pow_add]
        congr 1
        omega
      omega
    simp [applyLayer, convOut, hsnd, h1, h2]
  rw [applyModel_cons_some _ _ _ _ hlay2]
  rfl

/-- On a valid power-of-two size the discriminator's layer stack takes a
`[*, inChannels, 2 ^ k, 2 ^ k]` shape to `[*, 1, 1, 1]`. -/
theorem dcganDiscriminatorModel_apply (c n k : ℕ) (bn : Bool) (a la : Option Activation)
    (hk : 4 ≤ k) :
    applyModel (dcganDiscriminatorModel (2 ^ k) c n bn a la) (c, 2 ^ k) =
      some (1, 1) := by
  set r := numRepeats (2 ^ k) with hrdef
  set nl := a.getD defaultNl with hnl
  have hm : dcganDiscriminatorModel (2 ^ k) c n bn a la =
      ⟨⟨false, c, n, 4, 2, 1, true⟩, false, nl⟩ ::
        ((discLoop bn nl n r).1 ++
          [⟨⟨false, (discLoop bn nl n r).2, 1, 4, 1, 0, !bn⟩, false, la.getD defaultNl⟩]) := rfl
  have hr3 : r = k - 3 := numRepeats_two_pow k
  have hhalf : 2 ^ k = 2 * (2 ^ r * 3 + 2 ^ r) := by
    have h4 : (2 : ℕ) ^ k = 2 ^ 3 * 2 ^ r := by
      rw [hr3, ← pow_add]
      congr 1
      omega
    rw [h4]
    ring
  have hpos : 0 < 2 ^ r := Nat.pos_pow_of_pos _ (by norm_num)
  have hlay1 : applyLayer ⟨⟨false, c, n, 4, 2, 1, true⟩, false, nl⟩ (c, 2 ^ k) =
      some (n, 2 ^ r * 3 + 2 ^ r) := by
    have h1 : ¬(2 ^ k + 2 * 1 < 4) := by omega
    simp [applyLayer, convOut, h1]
    rw [hhalf]
    omega
  rw [hm, applyModel_cons_some _ _ _ _ hlay1, applyModel_append,
    discLoop_apply bn nl n r 3, Option.some_bind]
  have hsnd : (discLoop bn nl n r).2 = n * 2 ^ r := discLoop_snd bn nl n r
  have hlay2 : applyLayer ⟨⟨false, (discLoop bn nl n r).2, 1, 4, 1, 0, !bn⟩,
      false, la.getD defaultNl⟩ (n * 2 ^ r, 3 + 1) = some (1, 1) := by
    simp [applyLayer, convOut, hsnd]
  rw [applyModel_cons_some _ _ _ _ hlay2]
  rfl

/-! ## The size validation over floating-point `log2`

`out_size < 16 or ceil(log2(out_size)) != log2(out_size)` (generator
line 31, discriminator line 91): `math.log2` computes the IEEE-754
binary64 round-to-nearest value of the exact logarithm, `ceil` of a
float is exact, and the `int != float` comparison is exact.  The float
returned by `log2` is modelled relationally: `RoundsTo x q` says the
rational `q` is a nearest representable binary64 value of the real `x`
(the exponent range is left unbounded, harmless at the magnitudes in
play, and `n` itself converts to binary64 exactly in every case used
below).  The check passes exactly when the rounded value is an integer.
-/

/-- A rational representable in IEEE-754 binary64 (53-bit significand; the
exponent range is not bounded, which is harmless for the values at play). -/
def IsDouble (q : ℚ) : Prop := ∃ m e : ℤ, m.natAbs < 2 ^ 53 ∧ q = (m : ℚ) * 2 ^ e

/-- `q` is a round-to-nearest double of the real `x`. -/
def RoundsTo (x : ℝ) (q : ℚ) : Prop :=
  IsDouble q ∧ ∀ d : ℚ, IsDouble d → |x - (q : ℝ)| ≤ |x - (d : ℝ)|

/-- The size validation of both constructors. -/
def dcganSizeRaises (n : ℕ) : Prop :=
  n < 16 ∨ ∀ q : ℚ, RoundsTo (Real.logb 2 n) q → (⌈q⌉ : ℚ) ≠ q

theorem isDouble_intCast (m : ℤ) (h : m.natAbs < 2 ^ 53) : IsDouble (m : ℚ) :=
  ⟨m, 0, h, by simp⟩

theorem isDouble_natCast (k : ℕ) (h : k < 2 ^ 53) : IsDouble (k : ℚ) := by
  have := isDouble_intCast k (by simpa using h)
  simpa using this

theorem logb_natCast_pow (k : ℕ) : Real.logb 2 ((2 ^ k : ℕ) : ℝ) = k := by
  push_cast
  rw [Real.logb_pow, Real.logb_self_eq_one one_lt_two, mul_one]

theorem logb_nat_gap (a b : ℕ) (h0 : 0 < a) (hab : a < b) :
    1 / (b : ℝ) ≤ Real.logb 2 b - Real.logb 2 a := by
  have ha : (0 : ℝ) < a := by exact_mod_cast h0
  have hb : (0 : ℝ) < b := by
    have hb0 : (0 : ℕ) < b := h0.trans hab
    exact_mod_cast hb0
  have hquot : (1 : ℝ) ≤ (b : ℝ) / a := by
    rw [le_div_iff₀ ha]
    simp only [one_mul]
    exact_mod_cast hab.le
  rw [← Real.logb_div (ne_of_gt hb) (ne_of_gt ha)]
  have hlog2pos : 0 < Real.log 2 := Real.log_pos one_lt_two
  have hlog2le : Real.log 2 ≤ 1 := by
    have := Real.log_le_sub_one_of_pos (show (0:ℝ) < 2 by norm_num)
    linarith
  have hlogpos : 0 ≤ Real.log ((b : ℝ) / a) := Real.log_nonneg hquot
  have hlb : Real.log ((b : ℝ) / a) ≤ Real.logb 2 ((b : ℝ) / a) := by
    rw [Real.logb, le_div_iff₀ hlog2pos]
    nlinarith
  have hlow : 1 - (a : ℝ) / b ≤ Real.log ((b : ℝ) / a) := by
    have h := Real.one_sub_inv_le_log_of_pos (show (0:ℝ) < (b : ℝ) / a by positivity)
    rwa [inv_div] at h
  have hstep : 1 / (b : ℝ) ≤ 1 - (a : ℝ) / b := by
    have hcast : (a : ℝ) + 1 ≤ b := by exact_mod_cast hab
    have hsum : (a : ℝ) / b + 1 / b ≤ 1 := by
      rw [div_add_div_same, div_le_one hb]
      linarith
    linarith
  linarith

theorem logb_nat_gap_upper (a b : ℕ) (h0 : 0 < a) (hab : a ≤ b) :
    Real.logb 2 b - Real.logb 2 a ≤ 2 * ((b : ℝ) - a) / a := by
  have ha : (0 : ℝ) < a := by exact_mod_cast h0
  have hb : (0 : ℝ) < b := by
    have : (0:ℕ) < b := lt_of_lt_of_le h0 hab
    exact_mod_cast this
  have hquot : (1 : ℝ) ≤ (b : ℝ) / a := by
    rw [le_div_iff₀ ha]
    simp only [one_mul]
    exact_mod_cast hab
  rw [← Real.logb_div (ne_of_gt hb) (ne_of_gt ha)]
  have hlog2 : (1 : ℝ) / 2 ≤ Real.log 2 := by
    have := Real.log_two_gt_d9
    linarith
  have hup : Real.log ((b : ℝ) / a) ≤ (b : ℝ) / a - 1 :=
    Real.log_le_sub_one_of_pos (by positivity)
  have hlogpos : 0 ≤ Real.log ((b : ℝ) / a) := Real.log_nonneg hquot
  have h1 : Real.logb 2 ((b : ℝ) / a) ≤ 2 * Real.log ((b : ℝ) / a) := by
    rw [Real.logb, div_le_iff₀ (by linarith : (0:ℝ) < Real.log 2)]
    nlinarith
  have h2 : (b : ℝ) / a - 1 = ((b : ℝ) - a) / a := by
    field_simp
  calc Real.logb 2 ((b : ℝ) / a) ≤ 2 * Real.log ((b : ℝ) / a) := h1
    _ ≤ 2 * ((b : ℝ) / a - 1) := by linarith
    _ = 2 * ((b : ℝ) - a) / a := by rw [h2]; ring

/-- No binary64 value lies strictly between `50 - 2⁻⁴⁷` and `50`. -/
theorem no_double_window (d : ℚ) (hd : IsDouble d)
    (h1 : (50 : ℚ) - 1 / 2 ^ 47 < d) (h2 : d < 50) : False := by
  obtain ⟨m, e, hm, hde⟩ := hd
  rcases le_or_lt (-47 : ℤ) e with he | he
  · have hnn : (0 : ℤ) ≤ e + 47 := by omega
    have hpe : (2 : ℚ) ^ ((e + 47).toNat) = 2 ^ e * 2 ^ (47 : ℕ) := by
      rw [← zpow_natCast (2 : ℚ) (e + 47).toNat, Int.toNat_of_nonneg hnn,
        zpow_add₀ (two_ne_zero) e 47]
      norm_num
    have hj : d * 2 ^ 47 = ((m * 2 ^ (e + 47).toNat : ℤ) : ℚ) := by
      rw [hde]
      push_cast
      rw [hpe]
      ring
    set j : ℤ := m * 2 ^ (e + 47).toNat with hjdef
    have hlow : ((50 * 2 ^ 47 - 1 : ℤ) : ℚ) < (j : ℚ) := by
      rw [← hj]
      push_cast
      nlinarith [h1]
    have hhigh : ((j : ℚ)) < ((50 * 2 ^ 47 : ℤ) : ℚ) := by
      rw [← hj]
      push_cast
      nlinarith [h2]
    have hl : (50 * 2 ^ 47 - 1 : ℤ) < j := by exact_mod_cast hlow
    have hh : j < (50 * 2 ^ 47 : ℤ) := by exact_mod_cast hhigh
    omega
  · have hpow : (2 : ℚ) ^ e ≤ 2 ^ (-48 : ℤ) :=
      zpow_le_zpow_right₀ (by norm_num) (by omega)
    have hpos : (0 : ℚ) < 2 ^ e := zpow_pos (by norm_num) e
    have hmq : |(m : ℚ)| ≤ 2 ^ 53 := by
      have h1 : |m| ≤ (2 : ℤ) ^ 53 := by
        rw [Int.abs_eq_natAbs]
        exact_mod_cast hm.le
      exact_mod_cast h1
    have hd32 : d ≤ (2 : ℚ) ^ 53 * 2 ^ (-48 : ℤ) := by
      rw [hde]
      have h1' : (m : ℚ) * 2 ^ e ≤ 2 ^ 53 * 2 ^ e := by
        apply mul_le_mul_of_nonneg_right _ hpos.le
        exact (le_abs_self _).trans hmq
      calc (m : ℚ) * 2 ^ e ≤ 2 ^ 53 * 2 ^ e := h1'
        _ ≤ 2 ^ 53 * 2 ^ (-48 : ℤ) := by
            apply mul_le_mul_of_nonneg_left hpow
            norm_num
    have h32 : (2 : ℚ) ^ 53 * 2 ^ (-48 : ℤ) = 32 := by
      norm_num
    rw [h32] at hd32
    have : (50 : ℚ) - 1 / 2 ^ 47 > 32 := by norm_num
    linarith

theorem logb_n50_lt : Real.logb 2 ((2 ^ 50 - 1 : ℕ) : ℝ) < 50 := by
  have hpos : (0 : ℝ) < ((2 ^ 50 - 1 : ℕ) : ℝ) := by
    have : (0 : ℕ) < 2 ^ 50 - 1 := by norm_num
    exact_mod_cast this
  have hlt : ((2 ^ 50 - 1 : ℕ) : ℝ) < ((2 ^ 50 : ℕ) : ℝ) := by
    have : (2 ^ 50 - 1 : ℕ) < 2 ^ 50 := by norm_num
    exact_mod_cast this
  have h := Real.logb_lt_logb one_lt_two hpos hlt
  rw [logb_natCast_pow 50] at h
  exact_mod_cast h

theorem logb_n50_ge : 50 - 1 / 2 ^ 48 ≤ Real.logb 2 ((2 ^ 50 - 1 : ℕ) : ℝ) := by
  have hgap := logb_nat_gap_upper (2 ^ 50 - 1) (2 ^ 50) (by norm_num) (by norm_num)
  rw [logb_natCast_pow 50] at hgap
  have hc : ((2 ^ 50 - 1 : ℕ) : ℝ) = 2 ^ 50 - 1 := by
    have h1 : (1 : ℕ) ≤ 2 ^ 50 := Nat.one_le_two_pow
    push_cast [Nat.cast_sub h1]
    norm_num
  rw [hc] at hgap
  have hnum : 2 * (((2 ^ 50 : ℕ) : ℝ) - (2 ^ 50 - 1)) / (2 ^ 50 - 1) ≤ 1 / 2 ^ 48 := by
    push_cast
    rw [div_le_div_iff₀ (by norm_num) (by norm_num)]
    norm_num
  have h50 : ((50 : ℕ) : ℝ) = 50 := by norm_num
  rw [h50] at hgap
  linarith

theorem roundsTo_n50 : RoundsTo (Real.logb 2 ((2 ^ 50 - 1 : ℕ) : ℝ)) 50 := by
  set x := Real.logb 2 ((2 ^ 50 - 1 : ℕ) : ℝ) with hx
  have hlt : x < 50 := logb_n50_lt
  have hge : 50 - 1 / 2 ^ 48 ≤ x := logb_n50_ge
  refine ⟨isDouble_natCast 50 (by norm_num), fun d hd => ?_⟩
  by_contra hcon
  push_neg at hcon
  have hc50 : (((50 : ℚ)) : ℝ) = 50 := by norm_num
  rw [hc50] at hcon
  have habs50 : |x - 50| = 50 - x := by
    rw [abs_of_neg (by linarith)]
    ring
  rw [habs50] at hcon
  have hpair := abs_lt.mp hcon
  have hlowr : (50 : ℝ) - 1 / 2 ^ 47 < (d : ℝ) := by
    have h1 : (d : ℝ) > 2 * x - 50 := by linarith [hpair.2]
    have h2 : (2 : ℝ) * x - 50 ≥ 50 - 2 / 2 ^ 48 := by linarith
    have h3 : (50 : ℝ) - 2 / 2 ^ 48 = 50 - 1 / 2 ^ 47 := by norm_num
    linarith
  have hhighr : (d : ℝ) < 50 := by linarith [hpair.1]
  have hlow : (50 : ℚ) - 1 / 2 ^ 47 < d := by
    have : ((50 - 1 / 2 ^ 47 : ℚ) : ℝ) < (d : ℝ) := by push_cast; linarith
    exact_mod_cast this
  have hhigh : d < (50 : ℚ) := by exact_mod_cast hhighr
  exact no_double_window d hd hlow hhigh

theorem not_raises_pow50m1 : ¬ dcganSizeRaises (2 ^ 50 - 1) := by
  rw [dcganSizeRaises]
  push_neg
  refine ⟨by norm_num, 50, roundsTo_n50, by norm_num⟩

theorem pow50m1_not_pow : ∀ k : ℕ, (2 ^ 50 - 1 : ℕ) ≠ 2 ^ k := by
  intro k h
  rcases le_or_lt 50 k with hk | hk
  · have h1 : (2 : ℕ) ^ 50 ≤ 2 ^ k := Nat.pow_le_pow_right (by norm_num) hk
    have h2 : (1 : ℕ) ≤ 2 ^ 50 := Nat.one_le_two_pow
    omega
  · have h1 : (2 : ℕ) ^ k ≤ 2 ^ 49 := Nat.pow_le_pow_right (by norm_num) (by omega)
    have h2 : (2 : ℕ) ^ 49 < 2 ^ 50 - 1 := by norm_num
    omega

theorem not_raises_pow (k : ℕ) (hk : 4 ≤ k) (hk53 : k < 2 ^ 53) :
    ¬ dcganSizeRaises (2 ^ k) := by
  rw [dcganSizeRaises]
  push_neg
  constructor
  · calc 16 = 2 ^ 4 := by norm_num
      _ ≤ 2 ^ k := Nat.pow_le_pow_right (by norm_num) hk
  · refine ⟨(k : ℚ), ⟨isDouble_natCast k hk53, fun d hd => ?_⟩, by simp⟩
    rw [logb_natCast_pow k]
    have hc : (((k : ℚ)) : ℝ) = (k : ℝ) := by push_cast; rfl
    rw [hc]
    simp

theorem raises_of_not_pow (n : ℕ) (h16 : 16 ≤ n) (h40 : n ≤ 2 ^ 40)
    (hnp : ∀ k : ℕ, n ≠ 2 ^ k) :
    ∀ q : ℚ, RoundsTo (Real.logb 2 n) q → (⌈q⌉ : ℚ) ≠ q := by
  intro q hq hceil
  obtain ⟨hqd, hqmin⟩ := hq
  set x := Real.logb 2 (n : ℝ) with hxdef
  set k := Nat.log 2 n with hkdef
  have hk4 : 4 ≤ k := Nat.le_log_of_pow_le (by norm_num) (by norm_num; omega)
  have hk40 : k ≤ 40 := by
    have h := Nat.log_mono_right (b := 2) h40
    rwa [Nat.log_pow (by norm_num)] at h
  have hlow : 2 ^ k < n := by
    have h1 : 2 ^ k ≤ n := Nat.pow_log_le_self 2 (by omega)
    rcases lt_or_eq_of_le h1 with h | h
    · exact h
    · exact absurd h.symm (hnp k)
  have hhigh : n < 2 ^ (k + 1) := Nat.lt_pow_succ_log_self (by norm_num) n
  have hxk_low : 1 / (n : ℝ) ≤ x - k := by
    have hg := logb_nat_gap (2 ^ k) n (Nat.pos_pow_of_pos _ (by norm_num)) hlow
    rwa [logb_natCast_pow k] at hg
  have hxk_high : 1 / ((2 ^ (k + 1) : ℕ) : ℝ) ≤ ((k : ℝ) + 1) - x := by
    have hg := logb_nat_gap n (2 ^ (k + 1)) (by omega) hhigh
    rw [logb_natCast_pow (k + 1)] at hg
    have hc : (((k + 1 : ℕ)) : ℝ) = (k : ℝ) + 1 := by push_cast; ring
    rwa [hc] at hg
  have hnR : (0 : ℝ) < (n : ℝ) := by
    have : (0 : ℕ) < n := by omega
    exact_mod_cast this
  have hinvn : (0 : ℝ) < 1 / (n : ℝ) := by positivity
  have hinvp : (0 : ℝ) < 1 / ((2 ^ (k + 1) : ℕ) : ℝ) := by
    have : (0 : ℕ) < 2 ^ (k + 1) := Nat.pos_pow_of_pos _ (by norm_num)
    have hc : (0 : ℝ) < ((2 ^ (k + 1) : ℕ) : ℝ) := by exact_mod_cast this
    positivity
  have hkR : (4 : ℝ) ≤ (k : ℝ) := by exact_mod_cast hk4
  have hkR' : (k : ℝ) ≤ 40 := by exact_mod_cast hk40
  have hx4 : (4 : ℝ) ≤ x := by linarith
  have hx41 : x ≤ 41 := by linarith
  -- the nearest multiple of 2⁻⁴⁷ below x is a double
  set M := ⌊x * 2 ^ 47⌋ with hMdef
  have hMl : ((M : ℝ)) ≤ x * 2 ^ 47 := Int.floor_le _
  have hMu : x * 2 ^ 47 < (M : ℝ) + 1 := Int.lt_floor_add_one _
  have hM0 : 0 ≤ M := Int.floor_nonneg.mpr (by nlinarith)
  have hMup : M ≤ 41 * 2 ^ 47 := by
    have h1 : ((M : ℝ)) ≤ 41 * 2 ^ 47 := by nlinarith
    exact_mod_cast h1
  have hMb : M.natAbs < 2 ^ 53 := by omega
  have hgd : IsDouble ((M : ℚ) / 2 ^ 47) := by
    refine ⟨M, -47, hMb, ?_⟩
    rw [zpow_neg, div_eq_mul_inv]
    congr 1
    rw [← zpow_natCast (2 : ℚ) 47]
    norm_num
  have hgc : (((M : ℚ) / 2 ^ 47 : ℚ) : ℝ) = (M : ℝ) / 2 ^ 47 := by push_cast; ring
  have hclose : |x - (M : ℝ) / 2 ^ 47| ≤ 1 / 2 ^ 47 := by
    rw [abs_le]
    constructor
    · nlinarith
    · nlinarith
  -- q is an integer
  have hqt : (q : ℝ) = ((⌈q⌉ : ℤ) : ℝ) := by
    conv_lhs => rw [← hceil]
    push_cast
    rfl
  set t : ℤ := ⌈q⌉ with htdef
  have hfar : 1 / (2 : ℝ) ^ 41 ≤ |x - (t : ℝ)| := by
    rcases le_or_lt t (k : ℤ) with h | h
    · have htR : (t : ℝ) ≤ (k : ℝ) := by exact_mod_cast h
      have h1 : 1 / (n : ℝ) ≤ x - (t : ℝ) := by linarith
      have h2 : 1 / (2 : ℝ) ^ 41 ≤ 1 / (n : ℝ) := by
        apply one_div_le_one_div_of_le hnR
        have hc : ((n : ℝ)) ≤ ((2 ^ 40 : ℕ) : ℝ) := by exact_mod_cast h40
        have hc2 : ((2 ^ 40 : ℕ) : ℝ) = 2 ^ 40 := by push_cast; ring
        rw [hc2] at hc
        nlinarith [pow_pos (show (0:ℝ) < 2 by norm_num) 40]
      rw [abs_of_nonneg (by linarith)]
      linarith
    · have htR : (k : ℝ) + 1 ≤ (t : ℝ) := by exact_mod_cast h
      have h1 : 1 / ((2 ^ (k + 1) : ℕ) : ℝ) ≤ (t : ℝ) - x := by linarith
      have h2 : 1 / (2 : ℝ) ^ 41 ≤ 1 / ((2 ^ (k + 1) : ℕ) : ℝ) := by
        apply one_div_le_one_div_of_le (by exact_mod_cast Nat.pos_pow_of_pos (k+1) (by norm_num))
        have hle : (2 : ℕ) ^ (k + 1) ≤ 2 ^ 41 := Nat.pow_le_pow_right (by norm_num) (by omega)
        have hc : ((2 ^ (k + 1) : ℕ) : ℝ) ≤ ((2 ^ 41 : ℕ) : ℝ) := by exact_mod_cast hle
        have hc2 : ((2 ^ 41 : ℕ) : ℝ) = 2 ^ 41 := by push_cast; ring
        rwa [hc2] at hc
      rw [abs_of_nonpos (by linarith)]
      linarith
  have hmin := hqmin ((M : ℚ) / 2 ^ 47) hgd
  rw [hgc, hqt] at hmin
  have hsmall : |x - (t : ℝ)| ≤ 1 / 2 ^ 47 := le_trans hmin hclose
  have : (1 : ℝ) / 2 ^ 47 < 1 / 2 ^ 41 := by norm_num
  linarith

theorem dcganSizeRaises_iff_of_le (n : ℕ) (hn : n ≤ 2 ^ 40) :
    (dcganSizeRaises n ↔ (n < 16 ∨ ∀ k : ℕ, n ≠ 2 ^ k)) := by
  rw [dcganSizeRaises]
  by_cases h16 : n < 16
  · exact ⟨fun _ => Or.inl h16, fun _ => Or.inl h16⟩
  · push_neg at h16
    by_cases hp : ∃ k : ℕ, n = 2 ^ k
    · obtain ⟨k, rfl⟩ := hp
      have hk4 : 4 ≤ k := by
        by_contra hc
        push_neg at hc
        have h1 : (2 : ℕ) ^ k ≤ 2 ^ 3 := Nat.pow_le_pow_right (by norm_num) (by omega)
        norm_num at h1
        omega
      have hk40 : k ≤ 40 := by
        by_contra hc
        push_neg at hc
        have h1 : (2 : ℕ) ^ 41 ≤ 2 ^ k := Nat.pow_le_pow_right (by norm_num) (by omega)
        have h2 : (2 : ℕ) ^ 40 < 2 ^ 41 := by norm_num
        omega
      have hnr := not_raises_pow k hk4 (by omega)
      rw [dcganSizeRaises] at hnr
      constructor
      · intro hr
        exact absurd hr hnr
      · rintro (h | h)
        · omega
        · exact absurd rfl (h k)
    · push_neg at hp
      exact ⟨fun _ => Or.inr hp, fun _ => Or.inr (raises_of_not_pow n h16 hn hp)⟩

/-- C2 (counterexample): the claimed equivalence "construction raises a
ConfigError if and only if spatialSize < 16 or spatialSize is not an
exact power of two" is false over all integers: at `spatialSize =
2 ^ 50 - 1` (not a power of two, ≥ 16) the floating-point check accepts,
because binary64 `log2 (2 ^ 50 - 1)` rounds to exactly `50.0`. -/
theorem sizeCheck_iff_powerOfTwo_fails :
    ¬ ∀ n : ℕ, (dcganSizeRaises n ↔ (n < 16 ∨ ∀ k : ℕ, n ≠ 2 ^ k)) := by
  intro h
  exact not_raises_pow50m1 ((h (2 ^ 50 - 1)).mpr (Or.inr pow50m1_not_pow))

/-! ## Explicit forms and invariants of the two layer stacks -/

theorem dcganGeneratorModel_eq (e s c n : ℕ) (bn : Bool) (a la : Option Activation) :
    dcganGeneratorModel e s c n bn a la =
      ⟨⟨true, e, n * 2 ^ numRepeats s, 4, 1, 0, !bn⟩, bn, a.getD defaultNl⟩ ::
        ((List.range (numRepeats s)).map fun i =>
          ⟨⟨true, n * 2 ^ (numRepeats s - i), n * 2 ^ (numRepeats s - i) / 2, 4, 2, 1, !bn⟩,
            bn, a.getD defaultNl⟩)
        ++ [⟨⟨true, n, c, 4, 2, 1, true⟩, false, la.getD .tanh⟩] := by
  have hm : dcganGeneratorModel e s c n bn a la =
      ⟨⟨true, e, n * 2 ^ numRepeats s, 4, 1, 0, !bn⟩, bn, a.getD defaultNl⟩ ::
        ((genLoop bn (a.getD defaultNl) (n * 2 ^ numRepeats s) (numRepeats s)).1 ++
          [⟨⟨true, (genLoop bn (a.getD defaultNl) (n * 2 ^ numRepeats s) (numRepeats s)).2,
            c, 4, 2, 1, true⟩, false, la.getD .tanh⟩]) := rfl
  rw [hm, genLoop_fst bn (a.getD defaultNl) n (numRepeats s),
    genLoop_snd bn (a.getD defaultNl) n (numRepeats s), List.cons_append]

theorem dcganDiscriminatorModel_eq (s c n : ℕ) (bn : Bool) (a la : Option Activation) :
    dcganDiscriminatorModel s c n bn a la =
      ⟨⟨false, c, n, 4, 2, 1, true⟩, false, a.getD defaultNl⟩ ::
        ((List.range (numRepeats s)).map fun i =>
          ⟨⟨false, n * 2 ^ i, n * 2 ^ i * 2, 4, 2, 1, !bn⟩, bn, a.getD defaultNl⟩)
        ++ [⟨⟨false, n * 2 ^ numRepeats s, 1, 4, 1, 0, !bn⟩, false, la.getD defaultNl⟩] := by
  have hm : dcganDiscriminatorModel s c n bn a la =
      ⟨⟨false, c, n, 4, 2, 1, true⟩, false, a.getD defaultNl⟩ ::
        ((discLoop bn (a.getD defaultNl) n (numRepeats s)).1 ++
          [⟨⟨false, (discLoop bn (a.getD defaultNl) n (numRepeats s)).2, 1, 4, 1, 0, !bn⟩,
            false, la.getD defaultNl⟩]) := rfl
  rw [hm, discLoop_fst bn (a.getD defaultNl) n (numRepeats s),
    discLoop_snd bn (a.getD defaultNl) n (numRepeats s), List.cons_append]

theorem genLoop_length (bn : Bool) (nl : Activation) (d r : ℕ) :
    (genLoop bn nl d r).1.length = r := by
  induction r generalizing d with
  | zero => rfl
  | succ r ih => simp only [genLoop, List.length_cons, ih (d / 2)]

theorem discLoop_length (bn : Bool) (nl : Activation) (d r : ℕ) :
    (discLoop bn nl d r).1.length = r := by
  induction r generalizing d with
  | zero => rfl
  | succ r ih => simp only [discLoop, List.length_cons, ih (d * 2)]

theorem dcganGeneratorModel_length (e s c n : ℕ) (bn : Bool) (a la : Option Activation) :
    (dcganGeneratorModel e s c n bn a la).length = numRepeats s + 2 := by
  rw [dcganGeneratorModel_eq, List.length_append, List.length_cons, List.length_map,
    List.length_range, List.length_singleton]

theorem dcganDiscriminatorModel_length (s c n : ℕ) (bn : Bool) (a la : Option Activation) :
    (dcganDiscriminatorModel s c n bn a la).length = numRepeats s + 2 := by
  rw [dcganDiscriminatorModel_eq, List.length_append, List.length_cons, List.length_map,
    List.length_range, List.length_singleton]

theorem genLoop_chain (bn : Bool) (nl : Activation) :
    ∀ (r d : ℕ) (l0 : LayerSpec), l0.conv.outChannels = d →
      List.Chain' (fun p q : LayerSpec => q.conv.outChannels = p.conv.outChannels / 2)
        (l0 :: (genLoop bn nl d r).1) := by
  intro r
  induction r with
  | zero => intro d l0 _; exact List.chain'_singleton l0
  | succ r ih =>
    intro d l0 h0
    have hl : (genLoop bn nl d (r + 1)).1 =
        ⟨⟨true, d, d / 2, 4, 2, 1, !bn⟩, bn, nl⟩ :: (genLoop bn nl (d / 2) r).1 := rfl
    rw [hl, List.chain'_cons]
    exact ⟨by rw [h0], ih (d / 2) ⟨⟨true, d, d / 2, 4, 2, 1, !bn⟩, bn, nl⟩ rfl⟩

theorem discLoop_chain (bn : Bool) (nl : Activation) :
    ∀ (r d : ℕ) (l0 : LayerSpec), l0.conv.outChannels = d →
      List.Chain' (fun p q : LayerSpec => q.conv.outChannels = p.conv.outChannels * 2)
        (l0 :: (discLoop bn nl d r).1) := by
  intro r
  induction r with
  | zero => intro d l0 _; exact List.chain'_singleton l0
  | succ r ih =>
    intro d l0 h0
    have hl : (discLoop bn nl d (r + 1)).1 =
        ⟨⟨false, d, d * 2, 4, 2, 1, !bn⟩, bn, nl⟩ :: (discLoop bn nl (d * 2) r).1 := rfl
    rw [hl, List.chain'_cons]
    exact ⟨by rw [h0], ih (d * 2) ⟨⟨false, d, d * 2, 4, 2, 1, !bn⟩, bn, nl⟩ rfl⟩

theorem genLoop_last_out (bn : Bool) (nl : Activation) :
    ∀ (r m : ℕ) (l0 : LayerSpec), l0.conv.outChannels = m * 2 ^ r →
      ((l0 :: (genLoop bn nl (m * 2 ^ r) r).1).getLast?.map fun l => l.conv.outChannels) =
        some m := by
  intro r
  induction r with
  | zero =>
    intro m l0 h0
    simp only [genLoop, List.getLast?_singleton, Option.map_some', h0, pow_zero, mul_one]
  | succ r ih =>
    intro m l0 h0
    have hdiv : m * 2 ^ (r + 1) / 2 = m * 2 ^ r := by
      have h2 : m * 2 ^ (r + 1) = m * 2 ^ r * 2 := by ring
      rw [h2, Nat.mul_div_cancel _ (by norm_num)]
    have hl : (genLoop bn nl (m * 2 ^ (r + 1)) (r + 1)).1 =
        ⟨⟨true, m * 2 ^ (r + 1), m * 2 ^ (r + 1) / 2, 4, 2, 1, !bn⟩, bn, nl⟩ ::
          (genLoop bn nl (m * 2 ^ (r + 1) / 2) r).1 := rfl
    rw [hl, List.getLast?_cons_cons]
    rw [hdiv] at *
    exact ih m _ (by rw [hdiv])

theorem genLoop_activation (bn : Bool) (nl : Activation) :
    ∀ (r d : ℕ), ∀ l ∈ (genLoop bn nl d r).1, l.activation = nl := by
  intro r
  induction r with
  | zero => intro d l hl; simp [genLoop] at hl
  | succ r ih =>
    intro d l hl
    have hlst : (genLoop bn nl d (r + 1)).1 =
        ⟨⟨true, d, d / 2, 4, 2, 1, !bn⟩, bn, nl⟩ :: (genLoop bn nl (d / 2) r).1 := rfl
    rw [hlst] at hl
    rcases List.mem_cons.mp hl with h | h
    · rw [h]
    · exact ih (d / 2) l h

theorem discLoop_activation (bn : Bool) (nl : Activation) :
    ∀ (r d : ℕ), ∀ l ∈ (discLoop bn nl d r).1, l.activation = nl := by
  intro r
  induction r with
  | zero => intro d l hl; simp [discLoop] at hl
  | succ r ih =>
    intro d l hl
    have hlst : (discLoop bn nl d (r + 1)).1 =
        ⟨⟨false, d, d * 2, 4, 2, 1, !bn⟩, bn, nl⟩ :: (discLoop bn nl (d * 2) r).1 := rfl
    rw [hlst] at hl
    rcases List.mem_cons.mp hl with h | h
    · rw [h]
    · exact ih (d * 2) l h

/-! ## The claims -/

/-- C1 (counterexample): the claim "repeats = log2(spatialSize) - 4, in
particular 0 for spatialSize = 16" fails on the code: both builders
compute `num_repeats = bit_length - 4`, which at 16 is `5 - 4 = 1`
(not `log2 16 - 4 = 0`), and accordingly the generator model for size 16
has 3 layers (expansion, one intermediate doubling layer, final), not 2. -/
theorem numRepeats_sixteen_ne_log2_sub_four :
    numRepeats 16 ≠ Nat.log 2 16 - 4 ∧ numRepeats 16 = 1 ∧ Nat.log 2 16 - 4 = 0 ∧
    (dcganGeneratorModel 100 16 3 64 true none none).length = 3 := by
  have hlog : Nat.log 2 16 = 4 := by
    rw [show (16 : ℕ) = 2 ^ 4 by norm_num, Nat.log_pow (by norm_num)]
  exact ⟨by rw [hlog]; decide, by decide, by rw [hlog], by decide⟩

/-- C1 (amended): for every valid spatialSize `2 ^ k` (k ≥ 4) both
builders compute `num_repeats = bit_length - 4 = log2(spatialSize) - 3`:
the number of intermediate doubling layers is `k - 3` (so 1, 2, 3, 4 for
sizes 16, 32, 64, 128), and each model has `(k - 3) + 2` layers in
total. -/
theorem numRepeats_pow_eq_sub_three (k e c n : ℕ) (bn : Bool) (a la : Option Activation)
    (hk : 4 ≤ k) :
    numRepeats (2 ^ k) = k - 3 ∧
    (dcganGeneratorModel e (2 ^ k) c n bn a la).length = (k - 3) + 2 ∧
    (dcganDiscriminatorModel (2 ^ k) c n bn a la).length = (k - 3) + 2 := by
  refine ⟨numRepeats_two_pow k, ?_, ?_⟩
  · rw [dcganGeneratorModel_length, numRepeats_two_pow]
  · rw [dcganDiscriminatorModel_length, numRepeats_two_pow]

theorem numRepeats_pow_eq_sub_three_witness :
    numRepeats (2 ^ 5) = 5 - 3 ∧
    (dcganGeneratorModel 100 (2 ^ 5) 3 64 true none none).length = (5 - 3) + 2 ∧
    (dcganDiscriminatorModel (2 ^ 5) 3 64 true none none).length = (5 - 3) + 2 :=
  numRepeats_pow_eq_sub_three 5 100 3 64 true none none (by norm_num)

/-- C2 (amended): for every spatialSize up to `2 ^ 40`, construction
raises if and only if spatialSize < 16 or spatialSize is not an exact
power of two; in particular the check raises at 8, 15, 17, 33 and
accepts 16, 32, 64, 128.  (Beyond that range the floating-point check
can accept non-powers: see the counterexample at `2 ^ 50 - 1`.) -/
theorem sizeCheck_iff_powerOfTwo_below_2_40 (n : ℕ) (hn : n ≤ 2 ^ 40) :
    dcganSizeRaises n ↔ (n < 16 ∨ ∀ k : ℕ, n ≠ 2 ^ k) :=
  dcganSizeRaises_iff_of_le n hn

theorem sizeCheck_iff_powerOfTwo_witness :
    (dcganSizeRaises 17 ↔ (17 < 16 ∨ ∀ k : ℕ, (17 : ℕ) ≠ 2 ^ k)) ∧
    (dcganSizeRaises 32 ↔ (32 < 16 ∨ ∀ k : ℕ, (32 : ℕ) ≠ 2 ^ k)) :=
  ⟨sizeCheck_iff_powerOfTwo_below_2_40 17 (by norm_num),
   sizeCheck_iff_powerOfTwo_below_2_40 32 (by norm_num)⟩

/-- C3: for every valid configuration (spatialSize `2 ^ k`, k ≥ 4), the
generator's forward evaluation on a batch of encoding vectors of shape
`[batch, encodingDims]` (reshaped to `[batch, encodingDims, 1, 1]` and
passed through the layer stack, where the initial kernel-4/stride-1/
padding-0 transposed convolution takes 1×1 to 4×4 and every
kernel-4/stride-2/padding-1 transposed convolution doubles the spatial
size) produces an output of shape
`[batch, channelCount, spatialSize, spatialSize]`. -/
theorem generator_forward_output_shape (k e c n batch : ℕ) (bn : Bool)
    (a la : Option Activation) (hk : 4 ≤ k) :
    dcganGeneratorForwardShape e (2 ^ k) c n bn a la batch e =
      some (batch, c, 2 ^ k, 2 ^ k) := by
  unfold dcganGeneratorForwardShape
  rw [dcganGeneratorModel_apply e c n k bn a la hk]

theorem generator_forward_output_shape_witness :
    dcganGeneratorForwardShape 100 (2 ^ 5) 3 64 true none none 2 100 =
      some (2, 3, 2 ^ 5, 2 ^ 5) :=
  generator_forward_output_shape 5 100 3 64 2 true none none (by norm_num)

/-- C4 (counterexample): the claim "bias is unconditionally enabled on
the first and last layers of both models" fails: with the default
`batchnorm = True` configuration the generator's first layer is built
with `bias=use_bias`, i.e. bias disabled, and so is the discriminator's
last layer. -/
theorem bias_unconditional_fails :
    ((dcganGeneratorModel 100 32 3 64 true none none).head?.map fun l => l.conv.bias) =
      some false ∧
    ((dcganDiscriminatorModel 32 3 64 true none none).getLast?.map fun l => l.conv.bias) =
      some false :=
  ⟨by decide, by decide⟩

/-- C4 (amended): for every configuration, bias is unconditionally
enabled on the generator's LAST layer and on the discriminator's FIRST
layer; the generator's first layer and the discriminator's last layer
instead use the `use_bias = not batchnorm` flag. -/
theorem bias_flags_exact (s e c n : ℕ) (bn : Bool) (a la : Option Activation) :
    ((dcganGeneratorModel e s c n bn a la).head?.map fun l => l.conv.bias) = some (!bn) ∧
    ((dcganGeneratorModel e s c n bn a la).getLast?.map fun l => l.conv.bias) = some true ∧
    ((dcganDiscriminatorModel s c n bn a la).head?.map fun l => l.conv.bias) = some true ∧
    ((dcganDiscriminatorModel s c n bn a la).getLast?.map fun l => l.conv.bias) = some (!bn) := by
  refine ⟨rfl, ?_, rfl, ?_⟩
  · rw [dcganGeneratorModel_eq, List.getLast?_concat]
    rfl
  · rw [dcganDiscriminatorModel_eq, List.getLast?_concat]
    rfl

/-- C5: with matching configurations (channelCount 3, spatialSize 32,
remaining arguments at their defaults), the generator's output shape
`[batch, 3, 32, 32]` feeds into the discriminator's forward evaluation
without any shape error, and the discriminator returns a flattened
per-sample scalar tensor of shape `[batch]`. -/
theorem generator_discriminator_roundtrip (batch : ℕ) :
    dcganGeneratorForwardShape 100 32 3 64 true none none batch 100 =
      some (batch, 3, 32, 32) ∧
    dcganDiscriminatorForwardShape 32 3 64 true none none batch 3 32 = some batch :=
  ⟨rfl, rfl⟩

/-- C6: for every valid configuration, the generator's model is exactly:
one expansion layer (kernel 4, stride 1, padding 0) mapping
encodingDims to `d = stepChannels * 2 ^ repeats` channels, with a batch
norm exactly when `useNormalization` and then the activation; followed
by exactly `repeats = numRepeats spatialSize` layers (kernel 4,
stride 2, padding 1), each halving the channel depth `d -> d / 2`, each
with a batch norm exactly when `useNormalization` and followed by the
activation; and then the final layer. -/
theorem generator_structure (k e c n : ℕ) (bn : Bool) (a la : Option Activation)
    (hk : 4 ≤ k) :
    dcganGeneratorModel e (2 ^ k) c n bn a la =
      ⟨⟨true, e, n * 2 ^ (k - 3), 4, 1, 0, !bn⟩, bn, a.getD defaultNl⟩ ::
        ((List.range (k - 3)).map fun i =>
          ⟨⟨true, n * 2 ^ (k - 3 - i), n * 2 ^ (k - 3 - i) / 2, 4, 2, 1, !bn⟩, bn,
            a.getD defaultNl⟩)
        ++ [⟨⟨true, n, c, 4, 2, 1, true⟩, false, la.getD .tanh⟩] := by
  rw [dcganGeneratorModel_eq, numRepeats_two_pow]

theorem generator_structure_witness :
    dcganGeneratorModel 100 (2 ^ 4) 3 64 true none none =
      ⟨⟨true, 100, 64 * 2 ^ (4 - 3), 4, 1, 0, !true⟩, true,
        (none : Option Activation).getD defaultNl⟩ ::
        ((List.range (4 - 3)).map fun i =>
          ⟨⟨true, 64 * 2 ^ (4 - 3 - i), 64 * 2 ^ (4 - 3 - i) / 2, 4, 2, 1, !true⟩, true,
            (none : Option Activation).getD defaultNl⟩)
        ++ [⟨⟨true, 64, 3, 4, 2, 1, true⟩, false, (none : Option Activation).getD .tanh⟩] :=
  generator_structure 4 100 3 64 true none none (by norm_num)

/-- C7: for every valid configuration, the discriminator's model begins
with one contraction layer mapping channelCount to stepChannels
channels (kernel 4, stride 2, padding 1, bias always enabled, never
normalized) followed by the activation, and ends with one final layer
collapsing `stepChannels * 2 ^ repeats` channels to a single output
channel (kernel 4, stride 1, padding 0) followed by the final
activation. -/
theorem discriminator_first_last_structure (k c n : ℕ) (bn : Bool)
    (a la : Option Activation) (hk : 4 ≤ k) :
    (dcganDiscriminatorModel (2 ^ k) c n bn a la).head? =
      some ⟨⟨false, c, n, 4, 2, 1, true⟩, false, a.getD defaultNl⟩ ∧
    (dcganDiscriminatorModel (2 ^ k) c n bn a la).getLast? =
      some ⟨⟨false, n * 2 ^ (k - 3), 1, 4, 1, 0, !bn⟩, false, la.getD defaultNl⟩ := by
  constructor
  · rfl
  · rw [dcganDiscriminatorModel_eq, numRepeats_two_pow, List.getLast?_concat]

theorem discriminator_first_last_structure_witness :
    (dcganDiscriminatorModel (2 ^ 4) 3 64 true none none).head? =
      some ⟨⟨false, 3, 64, 4, 2, 1, true⟩, false,
        (none : Option Activation).getD defaultNl⟩ ∧
    (dcganDiscriminatorModel (2 ^ 4) 3 64 true none none).getLast? =
      some ⟨⟨false, 64 * 2 ^ (4 - 3), 1, 4, 1, 0, !true⟩, false,
        (none : Option Activation).getD defaultNl⟩ :=
  discriminator_first_last_structure 4 3 64 true none none (by norm_num)

/-- C8: for every valid configuration, along the generator's layers
before the final one each successive layer's output channel count is
exactly half the previous one's, ending at stepChannels just before the
final layer; along the discriminator's layers before the final one each
successive layer's output channel count is exactly double the previous
one's. -/
theorem channel_depth_monotonicity (k e c n : ℕ) (bn : Bool) (a la : Option Activation)
    (hk : 4 ≤ k) :
    List.Chain' (fun p q : LayerSpec => q.conv.outChannels = p.conv.outChannels / 2)
      (dcganGeneratorModel e (2 ^ k) c n bn a la).dropLast ∧
    ((dcganGeneratorModel e (2 ^ k) c n bn a la).dropLast.getLast?.map
      fun l => l.conv.outChannels) = some n ∧
    List.Chain' (fun p q : LayerSpec => q.conv.outChannels = p.conv.outChannels * 2)
      (dcganDiscriminatorModel (2 ^ k) c n bn a la).dropLast := by
  set r := numRepeats (2 ^ k) with hr
  set nl := a.getD defaultNl with hnl
  have hgd : (dcganGeneratorModel e (2 ^ k) c n bn a la).dropLast =
      ⟨⟨true, e, n * 2 ^ r, 4, 1, 0, !bn⟩, bn, nl⟩ :: (genLoop bn nl (n * 2 ^ r) r).1 := by
    have hm : dcganGeneratorModel e (2 ^ k) c n bn a la =
        (⟨⟨true, e, n * 2 ^ r, 4, 1, 0, !bn⟩, bn, nl⟩ :: (genLoop bn nl (n * 2 ^ r) r).1) ++
          [⟨⟨true, (genLoop bn nl (n * 2 ^ r) r).2, c, 4, 2, 1, true⟩, false,
            la.getD .tanh⟩] := by
      rw [List.cons_append]
      rfl
    rw [hm, List.dropLast_concat]
  have hdd : (dcganDiscriminatorModel (2 ^ k) c n bn a la).dropLast =
      ⟨⟨false, c, n, 4, 2, 1, true⟩, false, nl⟩ :: (discLoop bn nl n r).1 := by
    have hm : dcganDiscriminatorModel (2 ^ k) c n bn a la =
        (⟨⟨false, c, n, 4, 2, 1, true⟩, false, nl⟩ :: (discLoop bn nl n r).1) ++
          [⟨⟨false, (discLoop bn nl n r).2, 1, 4, 1, 0, !bn⟩, false, la.getD defaultNl⟩] := by
      rw [List.cons_append]
      rfl
    rw [hm, List.dropLast_concat]
  refine ⟨?_, ?_, ?_⟩
  · rw [hgd]
    exact genLoop_chain bn nl r (n * 2 ^ r) _ rfl
  · rw [hgd]
    exact genLoop_last_out bn nl r n _ rfl
  · rw [hdd]
    exact discLoop_chain bn nl r n _ rfl

theorem channel_depth_monotonicity_witness :
    List.Chain' (fun p q : LayerSpec => q.conv.outChannels = p.conv.outChannels / 2)
      (dcganGeneratorModel 100 (2 ^ 4) 3 64 true none none).dropLast ∧
    ((dcganGeneratorModel 100 (2 ^ 4) 3 64 true none none).dropLast.getLast?.map
      fun l => l.conv.outChannels) = some 64 ∧
    List.Chain' (fun p q : LayerSpec => q.conv.outChannels = p.conv.outChannels * 2)
      (dcganDiscriminatorModel (2 ^ 4) 3 64 true none none).dropLast :=
  channel_depth_monotonicity 4 100 3 64 true none none (by norm_num)

/-- C9: with the activation arguments left unspecified (`none`), the
intermediate activation of every non-final layer of both builders
defaults to a leaky rectifier with negative slope 0.2, the generator's
final activation defaults to tanh, and the discriminator's final
activation defaults to the same leaky rectifier with slope 0.2 — which
is not a sigmoid. -/
theorem default_activations (s e c n : ℕ) (bn : Bool) :
    (∀ l ∈ (dcganGeneratorModel e s c n bn none none).dropLast,
      l.activation = Activation.leakyReLU (1 / 5)) ∧
    ((dcganGeneratorModel e s c n bn none none).getLast?.map fun l => l.activation) =
      some Activation.tanh ∧
    (∀ l ∈ (dcganDiscriminatorModel s c n bn none none).dropLast,
      l.activation = Activation.leakyReLU (1 / 5)) ∧
    ((dcganDiscriminatorModel s c n bn none none).getLast?.map fun l => l.activation) =
      some (Activation.leakyReLU (1 / 5)) ∧
    Activation.leakyReLU (1 / 5) ≠ Activation.sigmoid := by
  set r := numRepeats s with hr
  have hgd : (dcganGeneratorModel e s c n bn none none).dropLast =
      ⟨⟨true, e, n * 2 ^ r, 4, 1, 0, !bn⟩, bn, defaultNl⟩ ::
        (genLoop bn defaultNl (n * 2 ^ r) r).1 := by
    have hm : dcganGeneratorModel e s c n bn none none =
        (⟨⟨true, e, n * 2 ^ r, 4, 1, 0, !bn⟩, bn, defaultNl⟩ ::
          (genLoop bn defaultNl (n * 2 ^ r) r).1) ++
          [⟨⟨true, (genLoop bn defaultNl (n * 2 ^ r) r).2, c, 4, 2, 1, true⟩, false,
            Activation.tanh⟩] := by
      rw [List.cons_append]
      rfl
    rw [hm, List.dropLast_concat]
  have hdd : (dcganDiscriminatorModel s c n bn none none).dropLast =
      ⟨⟨false, c, n, 4, 2, 1, true⟩, false, defaultNl⟩ ::
        (discLoop bn defaultNl n r).1 := by
    have hm : dcganDiscriminatorModel s c n bn none none =
        (⟨⟨false, c, n, 4, 2, 1, true⟩, false, defaultNl⟩ ::
          (discLoop bn defaultNl n r).1) ++
          [⟨⟨false, (discLoop bn defaultNl n r).2, 1, 4, 1, 0, !bn⟩, false, defaultNl⟩] := by
      rw [List.cons_append]
      rfl
    rw [hm, List.dropLast_concat]
  refine ⟨?_, ?_, ?_, ?_, by decide⟩
  · intro l hl
    rw [hgd] at hl
    rcases List.mem_cons.mp hl with h | h
    · rw [h]
      rfl
    · exact genLoop_activation bn defaultNl r (n * 2 ^ r) l h
  · rw [dcganGeneratorModel_eq, List.getLast?_concat]
    rfl
  · intro l hl
    rw [hdd] at hl
    rcases List.mem_cons.mp hl with h | h
    · rw [h]
      rfl
    · exact discLoop_activation bn defaultNl r n l h
  · rw [dcganDiscriminatorModel_eq, List.getLast?_concat]
    rfl

/-- C10: there is an integer spatialSize of at least 16 that is not a
power of two — `2 ^ 50 - 1` — on which the validation check
`ceil(log2 n) != log2 n` over floating-point `log2` does not raise:
binary64 `log2 (2 ^ 50 - 1)` rounds to exactly `50.0`, so construction
is accepted despite violating the stated power-of-two invariant. -/
theorem float_log2_check_accepts_large_nonpower :
    ∃ m : ℕ, 16 ≤ m ∧ (∀ k : ℕ, m ≠ 2 ^ k) ∧ ¬ dcganSizeRaises m :=
  ⟨2 ^ 50 - 1, by norm_num, pow50m1_not_pow, not_raises_pow50m1⟩
